import Mathlib

/-!
Verification of the TLSF (two-level segregated fit) memory pool of the
repository `tlsf-pmr` against its natural-language specification.

The development is a shallow embedding of the C++ sources.  Machine
integers (`std::size_t`, `unsigned int`) are modelled as `ℕ` with explicit
`% 2 ^ 64` (respectively `% 2 ^ 32`) wherever the C++ arithmetic can wrap;
addresses are byte offsets from the start of the backing region.

Layers of the embedding:
* bit utilities and size mapping, from `src/unnamed/part_000`
  (the snapshot of `block.cpp` whose member signatures match the current
  `src/src/pool.cpp`, i.e. the one using `x - (x & (align-1))` for
  `align_down` and a member `can_split`);
* the segregated index (bitmaps + list heads), from `src/src/pool.cpp`
  (`insert_free_block`, `remove_free_block`, `search_suitable_block`,
  `locate_free`, `malloc_pool`);
* the physical chain of blocks, abstracted as a list of (size, free-bit)
  records, with the chain transformations performed by `block_split`,
  `block_coalesce`, `trim_free`, `trim_used`, `trim_free_leading`,
  `merge_prev`, `merge_next` and the public operations built from them;
* small per-claim models of `initialize` / `create_memory_pool`,
  `free_pool`'s ownership test, `realloc_pool`'s dispatch and
  `tlsf_pool::operator==`.
-/

namespace Tlsf

/-! ### Constants (src/src/block.hpp, 64-bit target) -/

def ALIGN_SIZE_LOG2 : ℕ := 3
def ALIGN_SIZE : ℕ := 8
def FL_INDEX_MAX : ℕ := 32
def SL_INDEX_COUNT_LOG2 : ℕ := 5
def SL_INDEX_COUNT : ℕ := 32
def FL_INDEX_SHIFT : ℕ := 8
def FL_INDEX_COUNT : ℕ := 25
def SMALL_BLOCK_SIZE : ℕ := 256
def BLOCK_HEADER_OVERHEAD : ℕ := 8
def BLOCK_START_OFFSET : ℕ := 16
/-- `BLOCK_SIZE_MIN = sizeof(block_header) - sizeof(block_header*)` = 32 - 8. -/
def BLOCK_SIZE_MIN : ℕ := 24
def BLOCK_SIZE_MAX : ℕ := 2 ^ 32
/-- `sizeof(block_header)`: one pointer, one size field, two list pointers. -/
def SIZEOF_BLOCK_HEADER : ℕ := 32
/-- The modulus of `std::size_t` arithmetic on the 64-bit target. -/
def WORD : ℕ := 2 ^ 64

/-! ### Bit utilities (src/unnamed/part_000)

`tlsf_fls` is `32 - __builtin_clz(word)` minus one, i.e. the index of the
most significant set bit (-1 on zero).  We realise the bit scan by a
fuel-bounded structural recursion so that it evaluates inside `decide`;
64 steps of halving are enough for any value of a 64-bit word. -/

def flsAux : ℕ → ℕ → ℕ
  | 0, _ => 0
  | fuel + 1, w => if w < 2 then 0 else flsAux fuel (w / 2) + 1

def flsNat (w : ℕ) : ℕ := flsAux 64 w

def tlsf_fls (w : ℕ) : Int := if w = 0 then -1 else (flsNat w : Int)

/-- `tlsf_fls_sizet` (64-bit version): scan the high 32-bit half first. -/
def tlsf_fls_sizet (s : ℕ) : Int :=
  if s >>> 32 ≠ 0 then 32 + tlsf_fls (s >>> 32) else tlsf_fls (s % 2 ^ 32)

/-- `tlsf_ffs`: index of the least significant set bit, -1 on zero;
again fuel-bounded so that it computes. -/
def ffsAux : ℕ → ℕ → ℕ
  | 0, _ => 0
  | fuel + 1, w => if w % 2 = 1 then 0 else ffsAux fuel (w / 2) + 1

def ffsNat (w : ℕ) : ℕ := ffsAux 64 w

def tlsf_ffs (w : ℕ) : Int := if w = 0 then -1 else (ffsNat w : Int)

/-! ### Alignment arithmetic (src/unnamed/part_000, lines 349-364)

`align_up` is `(x + (align-1)) & ~(align-1)` in `std::size_t` arithmetic:
the sum wraps modulo `2^64` and the complement is the 64-bit one.
`align_down` is `x - (x & (align-1))` (the current revision of the file;
an earlier snapshot of the same file used `x + (x & (align-1))`). -/

def align_up (x align : ℕ) : ℕ :=
  ((x + (align - 1)) % WORD) &&& ((WORD - 1) ^^^ (align - 1))

def align_down (x align : ℕ) : ℕ := x - (x &&& (align - 1))

/-- `align_ptr`: same rounding computation as `align_up`, applied to a
pointer value. -/
def align_ptr (p align : ℕ) : ℕ :=
  ((p + (align - 1)) % WORD) &&& ((WORD - 1) ^^^ (align - 1))

def tlsf_min (a b : ℕ) : ℕ := if a < b then a else b
def tlsf_max (a b : ℕ) : ℕ := if a > b then a else b

/-- `adjust_request_size(size, align)`: 0 for a zero request, otherwise the
aligned size clamped from below by `BLOCK_SIZE_MIN`, or 0 again when the
aligned size reaches `BLOCK_SIZE_MAX`. -/
def adjust_request_size (size align : ℕ) : ℕ :=
  if size ≠ 0 then
    let aligned := align_up size align
    if aligned < BLOCK_SIZE_MAX then tlsf_max aligned BLOCK_SIZE_MIN else 0
  else 0

/-! ### Size mapping (src/unnamed/part_000, lines 373-401)

For all inputs arising in the pool the C `int` results are non-negative,
so the mapping is stated on `ℕ`; the subtraction `fl - (FL_INDEX_SHIFT-1)`
only happens in the branch where `fl ≥ 8`. -/

def mapping_insert (size : ℕ) : ℕ × ℕ :=
  if size < SMALL_BLOCK_SIZE then
    (0, size / (SMALL_BLOCK_SIZE / SL_INDEX_COUNT))
  else
    let fl := (tlsf_fls_sizet size).toNat
    (fl - (FL_INDEX_SHIFT - 1),
     (size >>> (fl - SL_INDEX_COUNT_LOG2)) ^^^ (1 <<< SL_INDEX_COUNT_LOG2))

def mapping_search (size : ℕ) : ℕ × ℕ :=
  if SMALL_BLOCK_SIZE ≤ size then
    let round := (1 <<< ((tlsf_fls_sizet size).toNat - SL_INDEX_COUNT_LOG2)) - 1
    mapping_insert (size + round)
  else mapping_insert size

/-- Lexicographic order on `(fl, sl)` pairs: "the searched list or a
strictly higher one". -/
def pairLe (p q : ℕ × ℕ) : Prop := p.1 < q.1 ∨ (p.1 = q.1 ∧ p.2 ≤ q.2)

instance (p q : ℕ × ℕ) : Decidable (pairLe p q) := by
  unfold pairLe; infer_instance

/-! ### Generic facts about the bit-twiddling -/

theorem land_two_pow_sub_one (x k : ℕ) : x &&& (2 ^ k - 1) = x % 2 ^ k := by
  apply Nat.eq_of_testBit_eq
  intro i
  rw [Nat.testBit_land, Nat.testBit_two_pow_sub_one, Nat.testBit_mod_two_pow]
  cases Nat.decLt i k with
  | isTrue h => simp [h]
  | isFalse h => simp [h]

theorem land_mask_compl (v k n : ℕ) (hk : k ≤ n) (hv : v < 2 ^ n) :
    v &&& ((2 ^ n - 1) ^^^ (2 ^ k - 1)) = v - v % 2 ^ k := by
  have hsub : v - v % 2 ^ k = (v >>> k) <<< k := by
    rw [Nat.shiftLeft_eq, Nat.shiftRight_eq_div_pow]
    have hd : v / 2 ^ k * 2 ^ k + v % 2 ^ k = v := Nat.div_add_mod' v (2 ^ k)
    omega
  rw [hsub]
  apply Nat.eq_of_testBit_eq
  intro i
  rw [Nat.testBit_land, Nat.testBit_xor, Nat.testBit_two_pow_sub_one,
    Nat.testBit_two_pow_sub_one, Nat.testBit_shiftLeft]
  by_cases hik : i < k
  · have hin : i < n := lt_of_lt_of_le hik hk
    simp [hik, hin, Nat.not_le.mpr hik]
  · by_cases hin : i < n
    · have hki : k ≤ i := Nat.not_lt.mp hik
      rw [Nat.testBit_shiftRight]
      have : k + (i - k) = i := by omega
      simp [hik, hin, hki, this]
    · have hti : v.testBit i = false := by
        apply Nat.testBit_lt_two_pow
        exact lt_of_lt_of_le hv (Nat.pow_le_pow_right (by norm_num) (Nat.not_lt.mp hin))
      have h2 : v.testBit (k + (i - k)) = false := by
        rwa [show k + (i - k) = i from by omega]
      simp [hik, hin, hti, h2]

theorem align_down_eq_mod (x k : ℕ) : align_down x (2 ^ k) = x - x % 2 ^ k := by
  unfold align_down
  rw [land_two_pow_sub_one]

theorem align_up_eq (x k : ℕ) (hk : k ≤ 64) (h : x + (2 ^ k - 1) < WORD) :
    align_up x (2 ^ k) = (x + (2 ^ k - 1)) - (x + (2 ^ k - 1)) % 2 ^ k := by
  unfold align_up
  rw [Nat.mod_eq_of_lt h]
  exact land_mask_compl _ k 64 hk h

theorem align_ptr_eq_align_up (p a : ℕ) : align_ptr p a = align_up p a := rfl

/-- The three facts that make `x - x % a` "the largest multiple of `a` not
exceeding `x`". -/
theorem round_down_spec (x a : ℕ) (ha : 0 < a) :
    a ∣ (x - x % a) ∧ (x - x % a) ≤ x ∧ x < (x - x % a) + a := by
  have hd := Nat.div_add_mod x a
  have hm : x % a < a := Nat.mod_lt _ ha
  refine ⟨⟨x / a, by omega⟩, by omega, by omega⟩

/-- The three facts that make the rounded-up value "the smallest multiple
of `a` not below `x`". -/
theorem round_up_spec (x a : ℕ) (ha : 0 < a) :
    a ∣ ((x + (a - 1)) - (x + (a - 1)) % a) ∧
    x ≤ ((x + (a - 1)) - (x + (a - 1)) % a) ∧
    ((x + (a - 1)) - (x + (a - 1)) % a) < x + a := by
  have hd := Nat.div_add_mod (x + (a - 1)) a
  have hm : (x + (a - 1)) % a < a := Nat.mod_lt _ ha
  refine ⟨⟨(x + (a - 1)) / a, by omega⟩, by omega, by omega⟩

theorem align_up_spec (x k : ℕ) (hk : k ≤ 64) (h : x + (2 ^ k - 1) < WORD) :
    2 ^ k ∣ align_up x (2 ^ k) ∧ x ≤ align_up x (2 ^ k) ∧
    align_up x (2 ^ k) < x + 2 ^ k := by
  rw [align_up_eq x k hk h]
  exact round_up_spec x (2 ^ k) (Nat.pos_pow_of_pos k (by norm_num))

theorem align_up_of_dvd (x k : ℕ) (hk : k ≤ 64) (h : x + (2 ^ k - 1) < WORD)
    (hd : 2 ^ k ∣ x) : align_up x (2 ^ k) = x := by
  rw [align_up_eq x k hk h]
  obtain ⟨m, rfl⟩ := hd
  have ha : 0 < 2 ^ k := Nat.pos_pow_of_pos k (by norm_num)
  have : (2 ^ k * m + (2 ^ k - 1)) % 2 ^ k = 2 ^ k - 1 := by
    rw [Nat.add_mod, Nat.mul_mod_right]
    simp [Nat.mod_eq_of_lt (show 2 ^ k - 1 < 2 ^ k by omega)]
  omega

/-! ### Claim C7 — `align_up` / `align_down` -/

/-- C7 counterexample: `align_up` is computed in wrapping `std::size_t`
arithmetic, so at `x = 2^64 - 1`, `align = 8` it returns `0`, which is not
the smallest multiple of 8 not below `x` (it is below `x`). -/
theorem C7_align_up_overflow_counterexample :
    align_up (2 ^ 64 - 1) 8 = 0 ∧ ¬ (2 ^ 64 - 1 ≤ align_up (2 ^ 64 - 1) 8) := by
  constructor
  · decide
  · decide

/-- C7 (amended): for every power of two `align = 2^k` (`k ≤ 64`),
`align_down x align` equals `x - (x &&& (align-1))`, the largest multiple
of `align` not exceeding `x`; and whenever the sum `x + align - 1` does not
overflow the 64-bit size type, `align_up x align` is the smallest multiple
of `align` not below `x`. -/
theorem C7_align_up_down (x k : ℕ) (hk : k ≤ 64) :
    (align_down x (2 ^ k) = x - (x &&& (2 ^ k - 1)) ∧
      2 ^ k ∣ align_down x (2 ^ k) ∧ align_down x (2 ^ k) ≤ x ∧
      x < align_down x (2 ^ k) + 2 ^ k) ∧
    (x + (2 ^ k - 1) < WORD →
      2 ^ k ∣ align_up x (2 ^ k) ∧ x ≤ align_up x (2 ^ k) ∧
      align_up x (2 ^ k) < x + 2 ^ k) := by
  constructor
  · refine ⟨rfl, ?_⟩
    rw [align_down_eq_mod]
    exact round_down_spec x (2 ^ k) (Nat.pos_pow_of_pos k (by norm_num))
  · intro h
    exact align_up_spec x k hk h

/-- C7 witness: the amended claim at `x = 998`, `align = 8`, together with
the spec's worked example `align_down 998 8 = 992`. -/
theorem C7_align_up_down_witness :
    align_down 998 8 = 992 ∧ align_up 998 8 = 1000 ∧
    (8 ∣ align_down 998 8 ∧ align_down 998 8 ≤ 998 ∧
      998 < align_down 998 8 + 8) := by
  refine ⟨by decide, by decide, ?_⟩
  have h := (C7_align_up_down 998 3 (by norm_num)).1
  exact h.2

/-! ### Claim C10 — `tlsf_pool::operator==` (src/src/pool.hpp, lines 46-48)

`memory_pool` is a `char*` which is null when the backing allocation
failed; we model it as `Option ℕ` (`none` = null). -/

structure PoolHandle where
  memory_pool : Option ℕ
deriving DecidableEq

/-- `return this->memory_pool == other.memory_pool && this->memory_pool != nullptr;` -/
def pool_eq (a b : PoolHandle) : Bool :=
  (a.memory_pool == b.memory_pool) && !(a.memory_pool == none)

/-- C10: pool equality holds exactly when both handles store the same
non-null region pointer; a pool whose backing allocation failed is unequal
to every pool, itself included. -/
theorem C10_pool_equality :
    (∀ a b : PoolHandle,
      pool_eq a b = true ↔ (a.memory_pool = b.memory_pool ∧ a.memory_pool ≠ none)) ∧
    (∀ a : PoolHandle, a.memory_pool = none →
      ∀ b : PoolHandle, pool_eq a b = false ∧ pool_eq b a = false) := by
  constructor
  · intro a b
    unfold pool_eq
    constructor
    · intro h
      simp only [Bool.and_eq_true, beq_iff_eq, Bool.not_eq_true'] at h
      exact ⟨h.1, by simpa using h.2⟩
    · intro ⟨h1, h2⟩
      have h3 : b.memory_pool ≠ none := h1 ▸ h2
      simp [h1, h3]
  · intro a ha b
    unfold pool_eq
    constructor
    · simp [ha]
    · rcases hb : b.memory_pool with _ | v
      · simp [hb]
      · simp [hb, ha]

/-- C10 witness: a never-allocated pool is unequal to itself and to an
allocated pool, and two handles over the same region are equal. -/
theorem C10_pool_equality_witness :
    pool_eq ⟨none⟩ ⟨none⟩ = false ∧ pool_eq ⟨none⟩ ⟨some 4096⟩ = false ∧
    pool_eq ⟨some 4096⟩ ⟨some 4096⟩ = true := by
  refine ⟨(C10_pool_equality.2 ⟨none⟩ rfl ⟨none⟩).1,
    (C10_pool_equality.2 ⟨none⟩ rfl ⟨some 4096⟩).1,
    (C10_pool_equality.1 ⟨some 4096⟩ ⟨some 4096⟩).2 ⟨rfl, by simp⟩⟩

/-! ### Claim C9 — `realloc_pool` dispatch (src/src/pool.cpp, lines 390-434) -/

inductive ReallocAction where
  /-- `ptr && size == 0`: the block is freed, null is returned. -/
  | as_free : ReallocAction
  /-- `!ptr`: the call behaves as `malloc_pool(size)`. -/
  | as_malloc : ReallocAction
  /-- next block used or combined span too small: allocate, copy, free. -/
  | move_copy : ReallocAction
  /-- the request fits without moving: the original pointer is returned. -/
  | in_place : ReallocAction
deriving DecidableEq

/-- The branch structure of `realloc_pool`.  `cursize` is
`block->get_size()`, `next_size` is `next->get_size()` and `next_free` is
`next->is_free()` for the physically following block. -/
def realloc_action (ptr : Option ℕ) (size cursize next_size : ℕ)
    (next_free : Bool) : ReallocAction :=
  match ptr with
  | some _ =>
    if size = 0 then .as_free
    else
      let combined := cursize + next_size + BLOCK_HEADER_OVERHEAD
      let adjust := adjust_request_size size ALIGN_SIZE
      if adjust > cursize ∧ (next_free = false ∨ adjust > combined) then
        .move_copy
      else .in_place
  | none => .as_malloc

theorem adjust_request_size_of_aligned (s : ℕ) (h8 : 8 ∣ s)
    (hmin : BLOCK_SIZE_MIN ≤ s) (hmax : s < BLOCK_SIZE_MAX) :
    adjust_request_size s ALIGN_SIZE = s := by
  have hs0 : s ≠ 0 := by
    intro h; rw [h] at hmin; exact absurd hmin (by decide)
  have hup : align_up s 8 = s := by
    have : (8 : ℕ) = 2 ^ 3 := by norm_num
    rw [this]
    apply align_up_of_dvd s 3 (by norm_num)
    · have : s < 2 ^ 32 := hmax
      unfold WORD
      omega
    · rwa [← this]
  unfold adjust_request_size ALIGN_SIZE
  rw [if_pos hs0]
  simp only [hup]
  rw [if_pos hmax]
  have hmin' : 24 ≤ s := hmin
  unfold tlsf_max BLOCK_SIZE_MIN
  split
  · rfl
  · omega

/-- C9: `realloc_pool` behaves as `malloc` on a null pointer, as `free`
(returning null) on a zero size with a non-null pointer, and keeps the
original pointer whenever the adjusted size fits in place — in particular
when the requested size equals the block's current size. -/
theorem C9_realloc_dispatch :
    (∀ size cursize next_size next_free,
      realloc_action none size cursize next_size next_free = .as_malloc) ∧
    (∀ p cursize next_size next_free,
      realloc_action (some p) 0 cursize next_size next_free = .as_free) ∧
    (∀ p size cursize next_size next_free, size ≠ 0 →
      (adjust_request_size size ALIGN_SIZE ≤ cursize ∨
        (next_free = true ∧
          adjust_request_size size ALIGN_SIZE ≤
            cursize + next_size + BLOCK_HEADER_OVERHEAD)) →
      realloc_action (some p) size cursize next_size next_free = .in_place) ∧
    (∀ p cursize next_size next_free, 8 ∣ cursize →
      BLOCK_SIZE_MIN ≤ cursize → cursize < BLOCK_SIZE_MAX →
      realloc_action (some p) cursize cursize next_size next_free = .in_place) := by
  refine ⟨fun _ _ _ _ => rfl, fun _ _ _ _ => rfl, ?_, ?_⟩
  · intro p size cursize next_size next_free hsz hfit
    unfold realloc_action
    rw [if_neg hsz, if_neg]
    push_neg
    intro hgt
    rcases hfit with h | ⟨hf, hc⟩
    · omega
    · exact ⟨by simp [hf], by omega⟩
  · intro p cursize next_size next_free h8 hmin hmax
    have hnz : cursize ≠ 0 := by
      unfold BLOCK_SIZE_MIN at hmin; omega
    have ha := adjust_request_size_of_aligned cursize h8 hmin hmax
    unfold realloc_action
    rw [if_neg hnz, if_neg]
    push_neg
    intro hgt
    rw [ha] at hgt
    omega

/-- C9 witness: concrete instances of the last two conjuncts (in-place when
the adjusted size fits, and `realloc(p, size(B)) = p`). -/
theorem C9_realloc_dispatch_witness :
    realloc_action (some 32) 100 104 0 false = .in_place ∧
    realloc_action (some 32) 104 104 40 true = .in_place ∧
    realloc_action none 77 0 0 false = .as_malloc ∧
    realloc_action (some 32) 0 104 0 false = .as_free := by
  refine ⟨?_, ?_, C9_realloc_dispatch.1 77 0 0 false,
    C9_realloc_dispatch.2.1 32 104 0 false⟩
  · exact C9_realloc_dispatch.2.2.1 32 100 104 0 false (by decide)
      (Or.inl (by decide))
  · exact C9_realloc_dispatch.2.2.2 32 104 40 true (by decide) (by decide)
      (by decide)

/-! ### Claim C2 — the ownership test of `free_pool`
(src/src/pool.cpp, lines 358-375)

`from_void_ptr` subtracts `BLOCK_START_OFFSET` from the payload pointer,
and the code proceeds to free the block unless
`block > memory_pool + pool_size || block < memory_pool`. -/

def block_from_void_ptr (p : ℕ) : ℕ := p - BLOCK_START_OFFSET

/-- `free_pool` as far as its return value is concerned: `true` exactly
when the pointer is non-null and the derived header address passes the
range test of the source (which uses `>`, i.e. a closed upper bound). -/
def free_pool_accepts (region pool_size : ℕ) (p : Option ℕ) : Bool :=
  match p with
  | none => false
  | some ptr =>
    let block := block_from_void_ptr ptr
    if block > region + pool_size ∨ block < region then false else true

/-- C2: the code accepts (and proceeds to free, returning `true`) a pointer
whose header lies exactly at `region + pool_size`, which is outside the
half-open interval `[region, region + N)` required by the claim.  With the
region at address 0 and `N = 1024`, the payload pointer `1040` derives the
header address `1024 = region + N`: the code returns `true`, the claim
demands `false`. -/
theorem C2_free_boundary :
    free_pool_accepts 0 1024 (some 1040) = true ∧
    block_from_void_ptr 1040 = 0 + 1024 ∧
    ¬ (block_from_void_ptr 1040 < 0 + 1024) ∧
    free_pool_accepts 0 1024 none = false := by
  refine ⟨rfl, rfl, by decide, rfl⟩

/-! ### Claim C4 — pool construction
(src/src/pool.cpp: `initialize`, lines 32-56, and `create_memory_pool`,
lines 58-99)

`initialize(size)` calls
`create_memory_pool(memory_pool + BLOCK_HEADER_OVERHEAD, size - BLOCK_HEADER_OVERHEAD)`;
`create_memory_pool(mem, bytes)` computes
`pool_bytes = align_down(bytes, ALIGN_SIZE)`, rejects it outside
`[BLOCK_SIZE_MIN, BLOCK_SIZE_MAX]`, then places the primary block at
`offset_to_block(mem, +BLOCK_HEADER_OVERHEAD)` (a positive offset in this
revision) and the sentinel by `link_next` from the primary block
(`next = payload + size - BLOCK_HEADER_OVERHEAD`).
Addresses are byte offsets from the start of the backing region. -/

def create_memory_pool_model (mem bytes : ℕ) : Option (ℕ × ℕ × ℕ) :=
  let pool_bytes := align_down bytes ALIGN_SIZE
  if mem % ALIGN_SIZE ≠ 0 then none
  else if pool_bytes < BLOCK_SIZE_MIN ∨ pool_bytes > BLOCK_SIZE_MAX then none
  else
    let block := mem + BLOCK_HEADER_OVERHEAD
    let next := (block + BLOCK_START_OFFSET) + pool_bytes - BLOCK_HEADER_OVERHEAD
    some (pool_bytes, block, next)

/-- `(primary block size, primary block address, sentinel address)` for a
pool built over `size` bytes of backing memory starting at address 0. -/
def initialize_model (size : ℕ) : Option (ℕ × ℕ × ℕ) :=
  create_memory_pool_model BLOCK_HEADER_OVERHEAD (size - BLOCK_HEADER_OVERHEAD)

/-- C4: for the default 1 MiB pool the code creates a primary block of size
`align_down(N - BLOCK_OVERHEAD, 8) = 1048568`, not
`align_down(N - 2*BLOCK_OVERHEAD, 8) = 1048560` as the claim states, and
the sentinel block it links lies at `1048592`, past the end of the region
(`N = 1048576`) — its header fields are written out of bounds. -/
theorem C4_construction_layout :
    initialize_model 1048576 = some (1048568, 16, 1048592) ∧
    align_down (1048576 - 2 * BLOCK_HEADER_OVERHEAD) ALIGN_SIZE = 1048560 ∧
    1048568 ≠ 1048560 ∧
    1048576 < 1048592 := by
  refine ⟨by decide, by decide, by decide, by decide⟩

/-! ### The segregated index (src/src/pool.cpp, lines 110-210)

The sentinel-terminated doubly-linked free list stored at
`blocks[fl][sl]` is abstracted as a Lean list of blocks (a block is
identified by its stored size, which is all the index operations consult);
"the head pointer equals `&block_null`" becomes "the list is empty", and
unlinking a block through its `prev_free`/`next_free` pointers becomes
removing it from the list. -/

structure IndexState where
  fl_bitmap : ℕ
  sl_bitmap : ℕ → ℕ
  heads : ℕ → ℕ → List ℕ

/-- `~0U << k` in 32-bit `unsigned int` arithmetic. -/
def mask32_shift (k : ℕ) : ℕ := ((2 ^ 32 - 1) <<< k) % 2 ^ 32

/-- `w &= ~(1U << k)` in 32-bit `unsigned int` arithmetic. -/
def clear_bit32 (w k : ℕ) : ℕ := w &&& ((2 ^ 32 - 1) ^^^ (1 <<< k))

/-- `insert_free_block`: splice the block at the head of list `(fl, sl)`
and set both bitmap bits unconditionally. -/
def insert_free_block (st : IndexState) (block : ℕ) (fl sl : ℕ) : IndexState :=
  { fl_bitmap := st.fl_bitmap ||| (1 <<< fl),
    sl_bitmap := fun i => if i = fl then st.sl_bitmap i ||| (1 <<< sl) else st.sl_bitmap i,
    heads := fun i j =>
      if i = fl ∧ j = sl then block :: st.heads i j else st.heads i j }

/-- `remove_free_block`: unlink the block; when the block was the head and
its successor is the sentinel, clear bit `sl` of `sl_bitmap[fl]`, and when
that word becomes zero also clear bit `fl` of `fl_bitmap`. -/
def remove_free_block (st : IndexState) (block : ℕ) (fl sl : ℕ) : IndexState :=
  match st.heads fl sl with
  | [] => st
  | hd :: rest =>
    if hd = block then
      if rest = [] then
        { fl_bitmap :=
            if clear_bit32 (st.sl_bitmap fl) sl = 0 then clear_bit32 st.fl_bitmap fl
            else st.fl_bitmap,
          sl_bitmap := fun i =>
            if i = fl then clear_bit32 (st.sl_bitmap fl) sl else st.sl_bitmap i,
          heads := fun i j => if i = fl ∧ j = sl then [] else st.heads i j }
      else
        { st with heads := fun i j => if i = fl ∧ j = sl then rest else st.heads i j }
    else
      { st with heads := fun i j =>
          if i = fl ∧ j = sl then (st.heads fl sl).erase block else st.heads i j }

/-- `search_suitable_block`: returns the index pair `(fl, sl)` whose head
block the source returns (`blocks[fl][sl]`), or `none` on exhaustion. -/
def search_suitable_block (st : IndexState) (fl sl : ℕ) : Option (ℕ × ℕ) :=
  let sl_map := st.sl_bitmap fl &&& mask32_shift sl
  if sl_map ≠ 0 then some (fl, ffsNat sl_map)
  else
    let fl_map := st.fl_bitmap &&& mask32_shift (fl + 1)
    if fl_map = 0 then none
    else
      let fl2 := ffsNat fl_map
      some (fl2, ffsNat (st.sl_bitmap fl2))

/-- `locate_free(size)`: `mapping_search` on the argument it is given,
bound check on `fl`, then the bitmap search; returns the found block. -/
def locate_free (st : IndexState) (size : ℕ) : Option ℕ :=
  if size ≠ 0 then
    let fs := mapping_search size
    if fs.1 < FL_INDEX_COUNT then
      match search_suitable_block st fs.1 fs.2 with
      | some fs2 => (st.heads fs2.1 fs2.2).head?
      | none => none
    else none
  else none

/-- `malloc_pool(size)` up to `prepare_used`: the source computes
`adjust = adjust_request_size(size, ALIGN_SIZE)` but then calls
`locate_free(size)` with the raw request size.  Returns the located block
together with the adjusted size passed on to `prepare_used`. -/
def malloc_pool_model (st : IndexState) (size : ℕ) : Option ℕ × ℕ :=
  (locate_free st size, adjust_request_size size ALIGN_SIZE)

/-- Bitmap/list consistency (spec invariant I1), together with the 32-bit
bounds on the two bitmap words. -/
def IndexInv (st : IndexState) : Prop :=
  st.fl_bitmap < 2 ^ 32 ∧
  (∀ i, i < FL_INDEX_COUNT → st.sl_bitmap i < 2 ^ 32) ∧
  (∀ i, i < FL_INDEX_COUNT → ∀ j, j < SL_INDEX_COUNT →
    ((st.sl_bitmap i).testBit j = true ↔ st.heads i j ≠ [])) ∧
  (∀ i, i < FL_INDEX_COUNT → (st.fl_bitmap.testBit i = true ↔ st.sl_bitmap i ≠ 0))

instance (st : IndexState) : Decidable (IndexInv st) := by
  unfold IndexInv FL_INDEX_COUNT SL_INDEX_COUNT
  infer_instance

/-! ### Claim C1 — `malloc_pool` searches with the raw size -/

/-- A well-formed index holding exactly one free block, of size 24, on
list `(0, 3)` (where `mapping_insert 24 = (0, 3)` places it). -/
def stC1 : IndexState :=
  { fl_bitmap := 1,
    sl_bitmap := fun i => if i = 0 then 8 else 0,
    heads := fun i j => if i = 0 ∧ j = 3 then [24] else [] }

/-- C1: with a single free block of size 24 in the index, `malloc_pool(25)`
computes the adjusted size 32 but searches with the raw size 25
(`mapping_search 25 = (0, 3)`) and locates the 24-byte block: the block
removed from the index is smaller than the adjusted size (24 < 32) and even
smaller than the raw request (24 < 25), violating `locate_free`'s own
assertion `block->get_size() >= size`. -/
theorem C1_malloc_searches_raw_size :
    IndexInv stC1 ∧
    mapping_insert 24 = (0, 3) ∧
    mapping_search 25 = (0, 3) ∧
    malloc_pool_model stC1 25 = (some 24, 32) ∧
    ¬ (25 ≤ 24) ∧ ¬ (adjust_request_size 25 ALIGN_SIZE ≤ 24) := by
  refine ⟨by decide, by decide, by decide, by decide, by decide, by decide⟩

/-! ### Claim C6 — bitmap consistency of insert / remove -/

theorem testBit_one_shiftLeft (k i : ℕ) :
    (1 <<< k).testBit i = decide (i = k) := by
  have h1 : (1 : ℕ) = 2 ^ 0 := rfl
  rw [Nat.testBit_shiftLeft, h1, Nat.testBit_two_pow]
  rcases Nat.lt_trichotomy i k with h | h | h
  · simp [Nat.not_le.mpr h, show i ≠ k from by omega]
  · subst h; simp
  · simp [show i ≥ k from by omega, show 0 ≠ i - k from by omega,
      show i ≠ k from by omega]

theorem clear_bit32_testBit (w k i : ℕ) (hk : k < 32) :
    (clear_bit32 w k).testBit i =
      (w.testBit i && (decide (i < 32) && !(decide (i = k)))) := by
  unfold clear_bit32
  rw [Nat.testBit_land, Nat.testBit_xor, Nat.testBit_two_pow_sub_one,
    testBit_one_shiftLeft]
  by_cases h : i = k
  · subst h; simp [hk]
  · simp [h]

theorem testBit_ne_zero {w j : ℕ} (h : w.testBit j = true) : w ≠ 0 := by
  intro h0
  rw [h0, Nat.zero_testBit] at h
  exact Bool.false_ne_true h

theorem one_shiftLeft_lt_two_pow {k n : ℕ} (h : k < n) : 1 <<< k < 2 ^ n := by
  rw [Nat.shiftLeft_eq, one_mul]
  exact Nat.pow_lt_pow_right (by norm_num) h

/-- C6: both index operations preserve the bitmap/list-emptiness
correspondence: bit `j` of `sl_bitmap[i]` is set iff list `(i, j)` is
non-empty, and bit `i` of `fl_bitmap` is set iff `sl_bitmap[i]` is
non-zero. -/
theorem C6_bitmap_consistency :
    (∀ st b fl sl, fl < FL_INDEX_COUNT → sl < SL_INDEX_COUNT → IndexInv st →
      IndexInv (insert_free_block st b fl sl)) ∧
    (∀ st b fl sl, fl < FL_INDEX_COUNT → sl < SL_INDEX_COUNT → IndexInv st →
      IndexInv (remove_free_block st b fl sl)) := by
  constructor
  · intro st b fl sl hfl hsl ⟨h1, h2, h3, h4⟩
    have hfl32 : fl < 32 := by unfold FL_INDEX_COUNT at hfl; omega
    have hsl32 : sl < 32 := by unfold SL_INDEX_COUNT at hsl; omega
    refine ⟨?_, ?_, ?_, ?_⟩
    · exact Nat.or_lt_two_pow h1 (one_shiftLeft_lt_two_pow hfl32)
    · intro i hi
      simp only [insert_free_block]
      by_cases hif : i = fl
      · subst hif
        simp only [if_pos rfl]
        exact Nat.or_lt_two_pow (h2 i hi) (one_shiftLeft_lt_two_pow hsl32)
      · simp only [if_neg hif]
        exact h2 i hi
    · intro i hi j hj
      simp only [insert_free_block]
      by_cases hif : i = fl
      · subst hif
        by_cases hjs : j = sl
        · subst hjs
          simp [Nat.testBit_lor, testBit_one_shiftLeft]
        · simp [Nat.testBit_lor, testBit_one_shiftLeft, hjs, h3 i hi j hj]
          intro hle htb
          exfalso
          rw [show (1 : ℕ) = 2 ^ 0 from rfl, Nat.testBit_two_pow] at htb
          simp only [decide_eq_true_eq] at htb
          omega
      · simp [hif, h3 i hi j hj]
    · intro i hi
      simp only [insert_free_block]
      by_cases hif : i = fl
      · subst hif
        have hne : st.sl_bitmap i ||| 1 <<< sl ≠ 0 := by
          apply testBit_ne_zero (j := sl)
          rw [Nat.testBit_lor, testBit_one_shiftLeft]
          simp
        simp [Nat.testBit_lor, testBit_one_shiftLeft, hne]
      · simp [hif, Nat.testBit_lor, testBit_one_shiftLeft, h4 i hi]
        intro hle htb
        exfalso
        rw [show (1 : ℕ) = 2 ^ 0 from rfl, Nat.testBit_two_pow] at htb
        simp only [decide_eq_true_eq] at htb
        omega
  · intro st b fl sl hfl hsl hinv
    obtain ⟨h1, h2, h3, h4⟩ := hinv
    have hfl32 : fl < 32 := by unfold FL_INDEX_COUNT at hfl; omega
    have hsl32 : sl < 32 := by unfold SL_INDEX_COUNT at hsl; omega
    unfold remove_free_block
    split
    · exact ⟨h1, h2, h3, h4⟩
    · rename_i hd rest heq
      by_cases hhd : hd = b
      · rw [if_pos hhd]
        by_cases hrest : rest = []
        · rw [if_pos hrest]
          have hbit : (st.sl_bitmap fl).testBit sl = true := by
            rw [h3 fl hfl sl hsl, heq]
            simp
          have hword : st.sl_bitmap fl ≠ 0 := testBit_ne_zero hbit
          have hflbit : st.fl_bitmap.testBit fl = true := (h4 fl hfl).mpr hword
          refine ⟨?_, ?_, ?_, ?_⟩
          · dsimp only
            split
            · exact lt_of_le_of_lt Nat.and_le_left h1
            · exact h1
          · intro i hi
            dsimp only
            by_cases hif : i = fl
            · rw [if_pos hif]
              exact lt_of_le_of_lt Nat.and_le_left (h2 fl hfl)
            · rw [if_neg hif]
              exact h2 i hi
          · intro i hi j hj
            dsimp only
            by_cases hif : i = fl
            · subst hif
              by_cases hjs : j = sl
              · subst hjs
                rw [if_pos rfl, if_pos ⟨rfl, rfl⟩,
                  clear_bit32_testBit _ _ _ hsl32]
                simp
              · rw [if_pos rfl, if_neg (by simp [hjs] : ¬ (i = i ∧ j = sl)),
                  clear_bit32_testBit _ _ _ hsl32]
                have hj32 : j < 32 := by unfold SL_INDEX_COUNT at hj; omega
                simp [hj32, hjs, h3 i hi j hj]
            · rw [if_neg hif, if_neg (by simp [hif] : ¬ (i = fl ∧ j = sl))]
              exact h3 i hi j hj
          · intro i hi
            dsimp only
            by_cases hif : i = fl
            · subst hif
              rw [if_pos rfl]
              split
              · rename_i hz
                rw [clear_bit32_testBit _ _ _ hfl32]
                simp [hz]
              · rename_i hz
                simp only [hflbit, true_iff]
                exact hz
            · rw [if_neg hif]
              have hi32 : i < 32 := by unfold FL_INDEX_COUNT at hi; omega
              split
              · rw [clear_bit32_testBit _ _ _ hfl32]
                simp [hi32, hif, h4 i hi]
              · exact h4 i hi
        · rw [if_neg hrest]
          refine ⟨h1, h2, ?_, h4⟩
          intro i hi j hj
          dsimp only
          by_cases hij : i = fl ∧ j = sl
          · obtain ⟨rfl, rfl⟩ := hij
            rw [if_pos ⟨rfl, rfl⟩]
            have hbit : (st.sl_bitmap i).testBit j = true := by
              rw [h3 i hi j hj, heq]
              simp
            simp [hbit, hrest]
          · rw [if_neg hij]
            exact h3 i hi j hj
      · rw [if_neg hhd]
        refine ⟨h1, h2, ?_, h4⟩
        intro i hi j hj
        dsimp only
        by_cases hij : i = fl ∧ j = sl
        · obtain ⟨rfl, rfl⟩ := hij
          rw [if_pos ⟨rfl, rfl⟩, heq]
          have hbit : (st.sl_bitmap i).testBit j = true := by
            rw [h3 i hi j hj, heq]
            simp
          have hbeq : (hd == b) = false := by
            simp [hhd]
          simp [hbit, List.erase_cons, hbeq]
        · rw [if_neg hij]
          exact h3 i hi j hj

/-- C6 witness: starting from the empty index, inserting a block of size
24 at `(0, 3)` and removing it again both preserve the invariant. -/
theorem C6_bitmap_consistency_witness :
    IndexInv (insert_free_block ⟨0, fun _ => 0, fun _ _ => []⟩ 24 0 3) ∧
    IndexInv (remove_free_block
      (insert_free_block ⟨0, fun _ => 0, fun _ _ => []⟩ 24 0 3) 24 0 3) := by
  have h1 := C6_bitmap_consistency.1 ⟨0, fun _ => 0, fun _ _ => []⟩ 24 0 3
    (by decide) (by decide) (by decide)
  exact ⟨h1, C6_bitmap_consistency.2 _ 24 0 3 (by decide) (by decide) h1⟩

/-! ### Claim C5 — the mapping guarantee -/

theorem flsAux_bracket :
    ∀ fuel w, 1 ≤ w → w < 2 ^ fuel →
      2 ^ flsAux fuel w ≤ w ∧ w < 2 ^ (flsAux fuel w + 1) := by
  intro fuel
  induction fuel with
  | zero =>
    intro w h1 h2
    simp only [pow_zero] at h2
    omega
  | succ fuel ih =>
    intro w h1 h2
    unfold flsAux
    by_cases hw : w < 2
    · rw [if_pos hw]
      simp only [pow_zero, pow_one]
      omega
    · rw [if_neg hw]
      have hw2 : 2 ≤ w := Nat.not_lt.mp hw
      have hdiv1 : 1 ≤ w / 2 := by omega
      have hdiv2 : w / 2 < 2 ^ fuel := by
        rw [Nat.div_lt_iff_lt_mul (by norm_num)]
        calc w < 2 ^ (fuel + 1) := h2
          _ = 2 ^ fuel * 2 := by ring
      obtain ⟨hlo, hhi⟩ := ih (w / 2) hdiv1 hdiv2
      constructor
      · calc 2 ^ (flsAux fuel (w / 2) + 1) = 2 ^ flsAux fuel (w / 2) * 2 := by ring
          _ ≤ w / 2 * 2 := by omega
          _ ≤ w := by omega
      · have : w / 2 + 1 ≤ 2 ^ (flsAux fuel (w / 2) + 1) := hhi
        calc w ≤ w / 2 * 2 + 1 := by omega
          _ < 2 ^ (flsAux fuel (w / 2) + 1) * 2 := by omega
          _ = 2 ^ (flsAux fuel (w / 2) + 1 + 1) := by ring

theorem pow_bracket_unique {a b w : ℕ} (ha1 : 2 ^ a ≤ w) (ha2 : w < 2 ^ (a + 1))
    (hb1 : 2 ^ b ≤ w) (hb2 : w < 2 ^ (b + 1)) : a = b := by
  rcases Nat.lt_trichotomy a b with h | h | h
  · exfalso
    have : (2 : ℕ) ^ (a + 1) ≤ 2 ^ b := Nat.pow_le_pow_right (by norm_num) (by omega)
    omega
  · exact h
  · exfalso
    have : (2 : ℕ) ^ (b + 1) ≤ 2 ^ a := Nat.pow_le_pow_right (by norm_num) (by omega)
    omega

/-- The C `tlsf_fls_sizet` computes the index of the most significant set
bit of a 64-bit size. -/
theorem tlsf_fls_sizet_bracket (s : ℕ) (h1 : 1 ≤ s) (h2 : s < 2 ^ 64) :
    2 ^ (tlsf_fls_sizet s).toNat ≤ s ∧ s < 2 ^ ((tlsf_fls_sizet s).toNat + 1) := by
  by_cases hh : s / 2 ^ 32 = 0
  · have hs32 : s < 2 ^ 32 := by
      by_contra hc
      have : 1 ≤ s / 2 ^ 32 := (Nat.le_div_iff_mul_le (by positivity)).mpr (by omega)
      omega
    have hval : tlsf_fls_sizet s = ((flsAux 64 s : ℕ) : Int) := by
      unfold tlsf_fls_sizet tlsf_fls flsNat
      rw [Nat.shiftRight_eq_div_pow]
      rw [if_neg (by simpa using hh),
        if_neg (by rw [Nat.mod_eq_of_lt hs32]; omega), Nat.mod_eq_of_lt hs32]
    rw [hval]
    have ht : (((flsAux 64 s : ℕ) : Int)).toNat = flsAux 64 s := by omega
    rw [ht]
    exact flsAux_bracket 64 s h1 h2
  · have hge : 2 ^ 32 ≤ s := by
      by_contra hc
      rw [Nat.div_eq_of_lt (by omega)] at hh
      exact hh rfl
    have hq1 : 1 ≤ s / 2 ^ 32 := (Nat.le_div_iff_mul_le (by positivity)).mpr (by omega)
    have hq2 : s / 2 ^ 32 < 2 ^ 32 := by
      rw [Nat.div_lt_iff_lt_mul (by positivity)]
      calc s < 2 ^ 64 := h2
        _ = 2 ^ 32 * 2 ^ 32 := by norm_num
    have hq64 : s / 2 ^ 32 < 2 ^ 64 := lt_trans hq2 (by norm_num)
    have hval : tlsf_fls_sizet s = ((32 + flsAux 64 (s / 2 ^ 32) : ℕ) : Int) := by
      unfold tlsf_fls_sizet tlsf_fls flsNat
      rw [Nat.shiftRight_eq_div_pow]
      rw [if_pos (by simpa using hh), if_neg (by omega)]
      push_cast
      ring
    rw [hval]
    obtain ⟨hlo, hhi⟩ := flsAux_bracket 64 (s / 2 ^ 32) hq1 hq64
    have ht : (((32 + flsAux 64 (s / 2 ^ 32) : ℕ)) : Int).toNat
        = 32 + flsAux 64 (s / 2 ^ 32) := by omega
    rw [ht]
    have hmul : 2 ^ 32 * (s / 2 ^ 32) ≤ s := Nat.mul_div_le s (2 ^ 32)
    have hmod : s < 2 ^ 32 * (s / 2 ^ 32) + 2 ^ 32 := by
      have := Nat.div_add_mod s (2 ^ 32)
      have := Nat.mod_lt s (show 0 < 2 ^ 32 by positivity)
      omega
    constructor
    · calc (2 : ℕ) ^ (32 + flsAux 64 (s / 2 ^ 32))
          = 2 ^ 32 * 2 ^ flsAux 64 (s / 2 ^ 32) := by rw [pow_add]
        _ ≤ 2 ^ 32 * (s / 2 ^ 32) := by
            exact Nat.mul_le_mul_left _ hlo
        _ ≤ s := hmul
    · calc s < 2 ^ 32 * (s / 2 ^ 32) + 2 ^ 32 := hmod
        _ ≤ 2 ^ 32 * (2 ^ (flsAux 64 (s / 2 ^ 32) + 1) - 1) + 2 ^ 32 := by
            have : s / 2 ^ 32 ≤ 2 ^ (flsAux 64 (s / 2 ^ 32) + 1) - 1 := by omega
            exact Nat.add_le_add_right (Nat.mul_le_mul_left _ this) _
        _ ≤ 2 ^ (32 + flsAux 64 (s / 2 ^ 32) + 1) := by
            rw [show 32 + flsAux 64 (s / 2 ^ 32) + 1 = 32 + (flsAux 64 (s / 2 ^ 32) + 1)
              from by omega]
            have h1 : (1 : ℕ) ≤ 2 ^ (flsAux 64 (s / 2 ^ 32) + 1) := Nat.one_le_two_pow
            have hA : 2 ^ (flsAux 64 (s / 2 ^ 32) + 1) - 1 + 1
                = 2 ^ (flsAux 64 (s / 2 ^ 32) + 1) := by omega
            refine le_of_eq ?_
            calc 2 ^ 32 * (2 ^ (flsAux 64 (s / 2 ^ 32) + 1) - 1) + 2 ^ 32
                = 2 ^ 32 * ((2 ^ (flsAux 64 (s / 2 ^ 32) + 1) - 1) + 1) := by ring
              _ = 2 ^ 32 * 2 ^ (flsAux 64 (s / 2 ^ 32) + 1) := by rw [hA]
              _ = 2 ^ (32 + (flsAux 64 (s / 2 ^ 32) + 1)) := (pow_add 2 32 _).symm

theorem xor32_sub (m : ℕ) (h1 : 32 ≤ m) (h2 : m < 64) : m ^^^ 32 = m - 32 := by
  interval_cases m <;> decide

/-- The exact shape of `mapping_insert` on the large-block branch. -/
theorem mapping_insert_large (s : ℕ) (h256 : 256 ≤ s) (h64 : s < 2 ^ 64) :
    mapping_insert s =
      ((tlsf_fls_sizet s).toNat - 7,
        s / 2 ^ ((tlsf_fls_sizet s).toNat - 5) - 32) ∧
    8 ≤ (tlsf_fls_sizet s).toNat ∧
    32 ≤ s / 2 ^ ((tlsf_fls_sizet s).toNat - 5) ∧
    s / 2 ^ ((tlsf_fls_sizet s).toNat - 5) < 64 := by
  obtain ⟨hlo, hhi⟩ := tlsf_fls_sizet_bracket s (by omega) h64
  set T := (tlsf_fls_sizet s).toNat with hT
  have hT8 : 8 ≤ T := by
    by_contra hc
    have : (2 : ℕ) ^ (T + 1) ≤ 2 ^ 8 := Nat.pow_le_pow_right (by norm_num) (by omega)
    have : s < 2 ^ 8 := by omega
    norm_num at this
    omega
  have hq1 : 32 ≤ s / 2 ^ (T - 5) := by
    rw [Nat.le_div_iff_mul_le (by positivity)]
    calc (32 : ℕ) * 2 ^ (T - 5) = 2 ^ 5 * 2 ^ (T - 5) := by norm_num
      _ = 2 ^ (5 + (T - 5)) := by rw [pow_add]
      _ = 2 ^ T := by congr 1; omega
      _ ≤ s := hlo
  have hq2 : s / 2 ^ (T - 5) < 64 := by
    rw [Nat.div_lt_iff_lt_mul (by positivity)]
    calc s < 2 ^ (T + 1) := hhi
      _ = 64 * 2 ^ (T - 5) := by
          rw [show (64 : ℕ) = 2 ^ 6 from by norm_num, ← pow_add]
          congr 1
          omega
  refine ⟨?_, hT8, hq1, hq2⟩
  unfold mapping_insert
  rw [if_neg (by unfold SMALL_BLOCK_SIZE; omega)]
  simp only [← hT]
  unfold FL_INDEX_SHIFT SL_INDEX_COUNT_LOG2
  rw [Nat.shiftRight_eq_div_pow,
    show (1 <<< 5 : ℕ) = 32 from by decide,
    xor32_sub _ hq1 hq2]

/-- The minimal size that `mapping_insert` sends to the pair `(fl, sl)`. -/
def class_min (fl sl : ℕ) : ℕ :=
  if fl = 0 then 8 * sl else 2 ^ (fl + 7) + sl * 2 ^ (fl + 2)

theorem insert_ge_class_min (b : ℕ) (hb : 1 ≤ b) (hbM : b < 2 ^ 64) :
    class_min (mapping_insert b).1 (mapping_insert b).2 ≤ b ∧
    (mapping_insert b).2 < 32 := by
  by_cases hsmall : b < SMALL_BLOCK_SIZE
  · have hmi : mapping_insert b = (0, b / 8) := by
      unfold mapping_insert SMALL_BLOCK_SIZE SL_INDEX_COUNT
      unfold SMALL_BLOCK_SIZE at hsmall
      rw [if_pos hsmall]
    rw [hmi]
    unfold class_min
    rw [if_pos rfl]
    have h1 : b / 8 * 8 ≤ b := Nat.div_mul_le_self b _
    have h2 : b / 8 < 32 := by
      unfold SMALL_BLOCK_SIZE at hsmall
      omega
    constructor
    · omega
    · exact h2
  · have h256 : 256 ≤ b := by unfold SMALL_BLOCK_SIZE at hsmall; omega
    obtain ⟨heq, hT8, hq1, hq2⟩ := mapping_insert_large b h256 hbM
    rw [heq]
    set T := (tlsf_fls_sizet b).toNat with hT
    set q := b / 2 ^ (T - 5) with hq
    unfold class_min
    rw [if_neg (by omega)]
    constructor
    · have e1 : T - 7 + 7 = T := by omega
      have e2 : T - 7 + 2 = T - 5 := by omega
      rw [e1, e2]
      have hpow : (2 : ℕ) ^ T = 32 * 2 ^ (T - 5) := by
        rw [show (32 : ℕ) = 2 ^ 5 from by norm_num, ← pow_add]
        congr 1
        omega
      have hsum : 2 ^ T + (q - 32) * 2 ^ (T - 5) = q * 2 ^ (T - 5) := by
        rw [hpow, ← Nat.add_mul]
        congr 1
        omega
      rw [hsum, hq]
      exact Nat.div_mul_le_self b _
    · omega

theorem class_min_mono {f1 s1 f2 s2 : ℕ} (hlex : pairLe (f1, s1) (f2, s2))
    (hs1 : s1 < 32) : class_min f1 s1 ≤ class_min f2 s2 := by
  rcases hlex with h | ⟨heq, hle⟩
  · have hf2 : f2 ≠ 0 := by omega
    have hub : class_min f1 s1 < 2 ^ (f2 + 7) := by
      unfold class_min
      by_cases hf1 : f1 = 0
      · rw [if_pos hf1]
        have : (2 : ℕ) ^ 8 ≤ 2 ^ (f2 + 7) :=
          Nat.pow_le_pow_right (by norm_num) (by omega)
        norm_num at this ⊢
        omega
      · rw [if_neg hf1]
        have hstep : 2 ^ (f1 + 7) + s1 * 2 ^ (f1 + 2) < 2 ^ (f1 + 8) := by
          have h1 : s1 * 2 ^ (f1 + 2) < 32 * 2 ^ (f1 + 2) := by
            have := pow_pos (show (0:ℕ) < 2 by norm_num) (f1 + 2)
            nlinarith
          have h2 : (2 : ℕ) ^ (f1 + 8) = 2 ^ (f1 + 7) + 32 * 2 ^ (f1 + 2) := by
            rw [show f1 + 8 = (f1 + 7) + 1 from by omega, pow_succ]
            rw [show (32 : ℕ) = 2 ^ 5 from by norm_num, ← pow_add]
            rw [show f1 + 2 + 5 = f1 + 7 from by omega]
            ring
          omega
        have hmono : (2 : ℕ) ^ (f1 + 8) ≤ 2 ^ (f2 + 7) :=
          Nat.pow_le_pow_right (by norm_num) (by omega)
        omega
    have hlb : 2 ^ (f2 + 7) ≤ class_min f2 s2 := by
      unfold class_min
      rw [if_neg hf2]
      omega
    omega
  · subst heq
    unfold class_min
    by_cases hf : f1 = 0
    · rw [if_pos hf, if_pos hf]
      omega
    · rw [if_neg hf, if_neg hf]
      have := pow_pos (show (0:ℕ) < 2 by norm_num) (f1 + 2)
      nlinarith

theorem search_le_class_min (s : ℕ) (h8 : 8 ∣ s) (hs1 : 1 ≤ s)
    (hsM : s < 2 ^ 32) :
    s ≤ class_min (mapping_search s).1 (mapping_search s).2 ∧
    (mapping_search s).2 < 32 := by
  by_cases hsmall : s < SMALL_BLOCK_SIZE
  · have hms : mapping_search s = (0, s / 8) := by
      unfold mapping_search
      rw [if_neg (by omega)]
      unfold mapping_insert SMALL_BLOCK_SIZE SL_INDEX_COUNT
      unfold SMALL_BLOCK_SIZE at hsmall
      rw [if_pos hsmall]
    rw [hms]
    unfold class_min
    rw [if_pos rfl]
    have he : s / 8 * 8 = s := Nat.div_mul_cancel h8
    have h2 : s / 8 < 32 := by
      unfold SMALL_BLOCK_SIZE at hsmall
      omega
    constructor
    · omega
    · exact h2
  · have h256 : 256 ≤ s := by unfold SMALL_BLOCK_SIZE at hsmall; omega
    have hs64 : s < 2 ^ 64 := lt_trans hsM (by norm_num)
    obtain ⟨hlo, hhi⟩ := tlsf_fls_sizet_bracket s (by omega) hs64
    set T := (tlsf_fls_sizet s).toNat with hT
    have hT8 : 8 ≤ T := by
      by_contra hc
      have : (2 : ℕ) ^ (T + 1) ≤ 2 ^ 8 := Nat.pow_le_pow_right (by norm_num) (by omega)
      have : s < 2 ^ 8 := by omega
      norm_num at this
      omega
    have hT31 : T ≤ 31 := by
      by_contra hc
      have : (2 : ℕ) ^ 32 ≤ 2 ^ T := Nat.pow_le_pow_right (by norm_num) (by omega)
      omega
    have hround : (1 <<< (T - 5) : ℕ) - 1 = 2 ^ (T - 5) - 1 := by
      rw [Nat.shiftLeft_eq, one_mul]
    have hstep : mapping_search s = mapping_insert (s + (2 ^ (T - 5) - 1)) := by
      unfold mapping_search
      rw [if_pos (by unfold SMALL_BLOCK_SIZE; omega)]
      unfold SL_INDEX_COUNT_LOG2
      rw [← hT, hround]
    set s' := s + (2 ^ (T - 5) - 1) with hs'
    have hw : (1 : ℕ) ≤ 2 ^ (T - 5) := Nat.one_le_two_pow
    have hwle : 2 ^ (T - 5) ≤ 2 ^ 26 := Nat.pow_le_pow_right (by norm_num) (by omega)
    have hs'64 : s' < 2 ^ 64 := by
      have : s' < 2 ^ 32 + 2 ^ 26 := by omega
      have h2 : (2 : ℕ) ^ 32 + 2 ^ 26 < 2 ^ 64 := by norm_num
      omega
    have hs'256 : 256 ≤ s' := by omega
    obtain ⟨heq', hT8', hq1', hq2'⟩ := mapping_insert_large s' hs'256 hs'64
    obtain ⟨hlo', hhi'⟩ := tlsf_fls_sizet_bracket s' (by omega) hs'64
    set T' := (tlsf_fls_sizet s').toNat with hT'
    rw [hstep, heq']
    constructor
    · unfold class_min
      rw [if_neg (by omega)]
      have e1 : T' - 7 + 7 = T' := by omega
      have e2 : T' - 7 + 2 = T' - 5 := by omega
      rw [e1, e2]
      by_cases hcase : s' < 2 ^ (T + 1)
      · have hTT : T' = T := by
          apply pow_bracket_unique hlo' hhi'
          · calc (2 : ℕ) ^ T ≤ s := hlo
              _ ≤ s' := by omega
          · exact hcase
        rw [hTT]
        rw [hTT] at hq1'
        have hpow : (2 : ℕ) ^ T = 32 * 2 ^ (T - 5) := by
          rw [show (32 : ℕ) = 2 ^ 5 from by norm_num, ← pow_add]
          congr 1
          omega
        have hexp : 2 ^ T + (s' / 2 ^ (T - 5) - 32) * 2 ^ (T - 5)
            = s' / 2 ^ (T - 5) * 2 ^ (T - 5) := by
          rw [hpow, ← Nat.add_mul]
          congr 1
          omega
        rw [hexp]
        have hdm : s' / 2 ^ (T - 5) * 2 ^ (T - 5) + s' % 2 ^ (T - 5) = s' :=
          Nat.div_add_mod' s' (2 ^ (T - 5))
        have hmlt : s' % 2 ^ (T - 5) < 2 ^ (T - 5) :=
          Nat.mod_lt _ (by positivity)
        omega
      · have hT'big : T + 1 ≤ T' := by
          by_contra hc
          have hle : T' + 1 ≤ T + 1 := by omega
          have : (2 : ℕ) ^ (T' + 1) ≤ 2 ^ (T + 1) :=
            Nat.pow_le_pow_right (by norm_num) hle
          omega
        have h1 : s < 2 ^ (T + 1) := hhi
        have h2 : (2 : ℕ) ^ (T + 1) ≤ 2 ^ T' :=
          Nat.pow_le_pow_right (by norm_num) (by omega)
        have h3 : (2 : ℕ) ^ T' ≤ 2 ^ T' + (s' / 2 ^ (T' - 5) - 32) * 2 ^ (T' - 5) := by
          omega
        omega
    · omega

/-- C5 counterexample: for the (unaligned) request size `s = 25` and the
block size `b = 24` (a legal block size, `≥ BLOCK_SIZE_MIN`),
`mapping_insert b = mapping_search s = (0, 3)`, yet `b < s`: a block on
exactly the searched list is too small for the request. -/
theorem C5_counterexample :
    pairLe (mapping_search 25) (mapping_insert 24) ∧
    mapping_search 25 = (0, 3) ∧ mapping_insert 24 = (0, 3) ∧
    BLOCK_SIZE_MIN ≤ 24 ∧ (24 : ℕ) < 25 := by
  refine ⟨by decide, by decide, by decide, by decide, by decide⟩

/-- C5 (amended): for every request size `s` that is a multiple of
`ALIGN_SIZE` with `1 ≤ s < BLOCK_SIZE_MAX` (as every adjusted request
produced by `adjust_request_size` is) and every block size `b < 2^64`,
if `mapping_insert b` is lexicographically at or above `mapping_search s`,
then `b ≥ s`. -/
theorem C5_mapping_guarantee (s b : ℕ) (h8 : ALIGN_SIZE ∣ s) (hs1 : 1 ≤ s)
    (hsM : s < BLOCK_SIZE_MAX) (hb1 : 1 ≤ b) (hbM : b < 2 ^ 64)
    (hlex : pairLe (mapping_search s) (mapping_insert b)) : s ≤ b := by
  have h8' : 8 ∣ s := h8
  have hsM' : s < 2 ^ 32 := hsM
  obtain ⟨hsearch, hsl⟩ := search_le_class_min s h8' hs1 hsM'
  obtain ⟨hinsert, _⟩ := insert_ge_class_min b hb1 hbM
  have hmono : class_min (mapping_search s).1 (mapping_search s).2 ≤
      class_min (mapping_insert b).1 (mapping_insert b).2 := by
    apply class_min_mono _ hsl
    rcases hlex with h | h
    · exact Or.inl h
    · exact Or.inr h
  omega

/-- C5 witness: the amended guarantee at `s = 32`, `b = 48`. -/
theorem C5_mapping_guarantee_witness :
    (32 : ℕ) ≤ 48 ∧ pairLe (mapping_search 32) (mapping_insert 48) := by
  refine ⟨?_, by decide⟩
  exact C5_mapping_guarantee 32 48 (by decide) (by decide) (by decide)
    (by decide) (by decide) (by decide)

/-! ### Claim C8 — `memalign_pool` alignment
(src/src/pool.cpp, lines 436-483)

The pointer computation inside `if (block)` is embedded as a pure
function of the located block's payload address, the block's size and the
requested alignment.  `trim_free_leading(block, gap)` splits at
`gap - BLOCK_HEADER_OVERHEAD` when `can_split(block, gap)` holds, which
places the remaining block's payload exactly at `ptr + gap`; when the
split is not possible the block is returned unchanged (payload `ptr`).
The later `trim_free`/`mark_as_used` in `prepare_used` do not move the
payload. -/

/-- The `aligned` pointer after the "offset to next aligned boundary"
step (the `gap && gap < gap_minimum` branch, which adds
`offset = max(gap_minimum - gap, align)` and re-aligns). -/
def memalign_bump (ptr aligned0 align : ℕ) : ℕ :=
  if aligned0 - ptr ≠ 0 ∧ aligned0 - ptr < SIZEOF_BLOCK_HEADER then
    align_ptr (aligned0 + tlsf_max (SIZEOF_BLOCK_HEADER - (aligned0 - ptr)) align) align
  else aligned0

/-- `(payload handed to prepare_used, final gap)`. -/
def memalign_payload (ptr bsize align : ℕ) : ℕ × ℕ :=
  let g := memalign_bump ptr (align_ptr ptr align) align - ptr
  if g ≠ 0 then
    if SIZEOF_BLOCK_HEADER + g ≤ bsize then (ptr + g, g) else (ptr, g)
  else (ptr, 0)

/-- `size_with_gap = adjust_request_size(adjust + align + gap_minimum, align)`. -/
def size_with_gap (adjust align : ℕ) : ℕ :=
  adjust_request_size (adjust + align + SIZEOF_BLOCK_HEADER) align

theorem adjust_request_size_lt (s a : ℕ) :
    adjust_request_size s a < BLOCK_SIZE_MAX := by
  have hpos : (0 : ℕ) < BLOCK_SIZE_MAX := by unfold BLOCK_SIZE_MAX; positivity
  unfold adjust_request_size
  split
  · dsimp only
    split
    · unfold tlsf_max
      split
      · assumption
      · unfold BLOCK_SIZE_MIN BLOCK_SIZE_MAX
        norm_num
    · exact hpos
  · exact hpos

theorem adjust_request_size_min (s a : ℕ) (h : adjust_request_size s a ≠ 0) :
    BLOCK_SIZE_MIN ≤ adjust_request_size s a := by
  unfold adjust_request_size at h ⊢
  by_cases hs : s ≠ 0
  · rw [if_pos hs] at h ⊢
    dsimp only at h ⊢
    by_cases hlt : align_up s a < BLOCK_SIZE_MAX
    · rw [if_pos hlt] at h ⊢
      unfold tlsf_max BLOCK_SIZE_MIN
      split
      · rename_i hgt
        omega
      · omega
    · rw [if_neg hlt] at h
      omega
  · rw [if_neg hs] at h
    omega

theorem mod_eq_zero_of_dvd {a b : ℕ} (h : a ∣ b) : b % a = 0 := by
  obtain ⟨c, rfl⟩ := h
  exact Nat.mul_mod_right a c

theorem align_up_eq_div (x k : ℕ) (hk : k ≤ 64) (h : x + (2 ^ k - 1) < WORD) :
    align_up x (2 ^ k) = 2 ^ k * ((x + (2 ^ k - 1)) / 2 ^ k) := by
  rw [align_up_eq x k hk h]
  have := Nat.div_add_mod (x + (2 ^ k - 1)) (2 ^ k)
  omega

theorem align_up_mono (x y k : ℕ) (hk : k ≤ 64) (hxy : x ≤ y)
    (hov : y + (2 ^ k - 1) < WORD) :
    align_up x (2 ^ k) ≤ align_up y (2 ^ k) := by
  rw [align_up_eq_div x k hk (by omega), align_up_eq_div y k hk hov]
  exact Nat.mul_le_mul_left _ (Nat.div_le_div_right (by omega))

theorem align_up_add_of_dvd (x d k : ℕ) (hk : k ≤ 64)
    (hov : x + d + (2 ^ k - 1) < WORD) (hdvd : 2 ^ k ∣ x) :
    align_up (x + d) (2 ^ k) = x + align_up d (2 ^ k) := by
  rw [align_up_eq_div (x + d) k hk (by omega), align_up_eq_div d k hk (by omega)]
  obtain ⟨m, rfl⟩ := hdvd
  have hpos : 0 < 2 ^ k := Nat.pos_pow_of_pos k (by norm_num)
  rw [show 2 ^ k * m + d + (2 ^ k - 1) = 2 ^ k * m + (d + (2 ^ k - 1)) from by omega,
    Nat.mul_add_div hpos, Nat.mul_add]

/-- After the bump step the aligned pointer is a multiple of the
requested alignment, does not precede `ptr`, and leaves a gap that is
either zero or between a full block header and `31 + align`. -/
theorem memalign_bump_spec (ptr k : ℕ) (hk4 : 4 ≤ k) (hk : k ≤ 32)
    (hov : ptr + 3 * 2 ^ k + SIZEOF_BLOCK_HEADER < WORD) :
    2 ^ k ∣ memalign_bump ptr (align_ptr ptr (2 ^ k)) (2 ^ k) ∧
    ptr ≤ memalign_bump ptr (align_ptr ptr (2 ^ k)) (2 ^ k) ∧
    (memalign_bump ptr (align_ptr ptr (2 ^ k)) (2 ^ k) - ptr = 0 ∨
      (SIZEOF_BLOCK_HEADER ≤ memalign_bump ptr (align_ptr ptr (2 ^ k)) (2 ^ k) - ptr ∧
        memalign_bump ptr (align_ptr ptr (2 ^ k)) (2 ^ k) - ptr ≤ 31 + 2 ^ k)) := by
  have hk64 : k ≤ 64 := by omega
  have hpow_le : (2 : ℕ) ^ k ≤ 2 ^ 32 := Nat.pow_le_pow_right (by norm_num) hk
  have h16 : (16 : ℕ) ≤ 2 ^ k := by
    calc (16 : ℕ) = 2 ^ 4 := by norm_num
      _ ≤ 2 ^ k := Nat.pow_le_pow_right (by norm_num) hk4
  rw [align_ptr_eq_align_up]
  obtain ⟨hdvd0, hle0, hlt0⟩ := align_up_spec ptr k hk64
    (by unfold SIZEOF_BLOCK_HEADER at hov; omega)
  set a0 := align_up ptr (2 ^ k) with ha0
  have hg0 : a0 - ptr < 2 ^ k := by omega
  unfold memalign_bump
  by_cases hc : a0 - ptr ≠ 0 ∧ a0 - ptr < SIZEOF_BLOCK_HEADER
  · rw [if_pos hc]
    obtain ⟨hne, hsmall⟩ := hc
    unfold SIZEOF_BLOCK_HEADER at hsmall
    unfold tlsf_max SIZEOF_BLOCK_HEADER
    rw [align_ptr_eq_align_up]
    by_cases hbig : 32 - (a0 - ptr) > 2 ^ k
    · -- offset = gap_minimum - gap; only possible when align = 16
      rw [if_pos hbig]
      have hklt : k < 5 := by
        by_contra hc5
        have : (2 : ℕ) ^ 5 ≤ 2 ^ k := Nat.pow_le_pow_right (by norm_num) (by omega)
        norm_num at this
        omega
      have hkeq : k = 4 := by omega
      subst hkeq
      norm_num at h16 hg0 hbig hov ⊢
      have hd1 : 16 < 32 - (a0 - ptr) := hbig
      have hd2 : 32 - (a0 - ptr) ≤ 32 := by omega
      have hadd := align_up_add_of_dvd a0 (32 - (a0 - ptr)) 4 (by norm_num)
        (by norm_num; omega) hdvd0
      norm_num at hadd
      rw [hadd]
      have hup : align_up (32 - (a0 - ptr)) 16 = 32 := by
        have h2 : (16 : ℕ) = 2 ^ 4 := by norm_num
        obtain ⟨hud, hu1, hu2⟩ := align_up_spec (32 - (a0 - ptr)) 4 (by norm_num)
          (by unfold WORD; norm_num; omega)
        rw [← h2] at hud hu1 hu2
        obtain ⟨c, hc⟩ := hud
        omega
      rw [hup]
      refine ⟨?_, by omega, Or.inr ⟨by omega, by omega⟩⟩
      obtain ⟨c, hc⟩ := hdvd0
      exact ⟨c + 2, by omega⟩
    · -- offset = align
      rw [if_neg hbig]
      have hadd := align_up_add_of_dvd a0 (2 ^ k) k hk64 (by omega) hdvd0
      rw [hadd, align_up_of_dvd _ k hk64 (by omega) dvd_rfl]
      refine ⟨?_, by omega, Or.inr ⟨by omega, by omega⟩⟩
      exact Nat.dvd_add hdvd0 dvd_rfl
  · rw [if_neg hc]
    push_neg at hc
    refine ⟨hdvd0, hle0, ?_⟩
    by_cases hz : a0 - ptr = 0
    · exact Or.inl hz
    · exact Or.inr ⟨hc hz, by omega⟩

theorem size_with_gap_ge (adjust k : ℕ) (hk4 : 4 ≤ k) (hk : k ≤ 32)
    (hadj : BLOCK_SIZE_MIN ≤ adjust) (hadjlt : adjust < BLOCK_SIZE_MAX)
    (hne : size_with_gap adjust (2 ^ k) ≠ 0) :
    63 + 2 ^ k ≤ size_with_gap adjust (2 ^ k) := by
  have hk64 : k ≤ 64 := by omega
  have hpow_le : (2 : ℕ) ^ k ≤ 2 ^ 32 := Nat.pow_le_pow_right (by norm_num) hk
  have hpow_pos : (0 : ℕ) < 2 ^ k := Nat.pos_pow_of_pos k (by norm_num)
  unfold BLOCK_SIZE_MIN at hadj
  unfold BLOCK_SIZE_MAX at hadjlt
  have hA : adjust + 2 ^ k + SIZEOF_BLOCK_HEADER ≠ 0 := by
    unfold SIZEOF_BLOCK_HEADER
    omega
  have hovA : adjust + 2 ^ k + SIZEOF_BLOCK_HEADER + (2 ^ k - 1) < WORD := by
    unfold SIZEOF_BLOCK_HEADER WORD
    have h1 : (2 : ℕ) ^ 32 < 2 ^ 62 := by norm_num
    have h2 : (2 : ℕ) ^ 62 + 2 ^ 62 + 32 + 2 ^ 62 < 2 ^ 64 := by norm_num
    omega
  have hval : size_with_gap adjust (2 ^ k)
      = align_up (adjust + 2 ^ k + SIZEOF_BLOCK_HEADER) (2 ^ k) ∨
      size_with_gap adjust (2 ^ k) = 0 := by
    unfold size_with_gap adjust_request_size
    rw [if_pos hA]
    dsimp only
    by_cases hlt : align_up (adjust + 2 ^ k + SIZEOF_BLOCK_HEADER) (2 ^ k) < BLOCK_SIZE_MAX
    · left
      rw [if_pos hlt]
      obtain ⟨_, hge, _⟩ := align_up_spec (adjust + 2 ^ k + SIZEOF_BLOCK_HEADER) k hk64 hovA
      unfold tlsf_max BLOCK_SIZE_MIN
      have hS : SIZEOF_BLOCK_HEADER = 32 := rfl
      split
      · rfl
      · omega
    · right
      rw [if_neg hlt]
  rcases hval with hval | hval
  · rw [hval]
    have hmono : align_up (56 + 2 ^ k) (2 ^ k)
        ≤ align_up (adjust + 2 ^ k + SIZEOF_BLOCK_HEADER) (2 ^ k) := by
      apply align_up_mono _ _ k hk64 _ hovA
      unfold SIZEOF_BLOCK_HEADER
      omega
    have hsplit : align_up (56 + 2 ^ k) (2 ^ k) = 2 ^ k + align_up 56 (2 ^ k) := by
      rw [show 56 + 2 ^ k = 2 ^ k + 56 from by omega]
      apply align_up_add_of_dvd _ _ k hk64 _ dvd_rfl
      unfold WORD
      have h2 : (2 : ℕ) ^ 32 < 2 ^ 62 := by norm_num
      have h3 : (2 : ℕ) ^ 62 + 56 + 2 ^ 62 < 2 ^ 64 := by norm_num
      omega
    have h56 : 63 ≤ align_up 56 (2 ^ k) := by
      by_cases hk6 : 6 ≤ k
      · have h64 : (64 : ℕ) ≤ 2 ^ k := by
          calc (64 : ℕ) = 2 ^ 6 := by norm_num
            _ ≤ 2 ^ k := Nat.pow_le_pow_right (by norm_num) hk6
        obtain ⟨hud, hu1, _⟩ := align_up_spec 56 k hk64
          (by unfold WORD; omega)
        have hupos : align_up 56 (2 ^ k) ≠ 0 := by omega
        have : 2 ^ k ≤ align_up 56 (2 ^ k) :=
          Nat.le_of_dvd (by omega) hud
        omega
      · interval_cases k
        · have : align_up 56 (2 ^ 4) = 64 := by decide
          omega
        · have : align_up 56 (2 ^ 5) = 64 := by decide
          omega
    omega
  · exact absurd hval hne

/-- C8: for every power-of-two alignment, a payload produced by
`memalign_pool` is `align`-aligned, and the leading gap trimmed off is
never smaller than a full block header; the offset step moves forward by
`aligned + offset` to the next boundary.  The hypotheses state that the
located block satisfies the `size_with_gap` search bound (which
`locate_free` guarantees for the aligned search size) and that the
addresses involved stay below `2^64`. -/
theorem C8_memalign_alignment (k ptr bsize size : ℕ) (hk : k ≤ 32)
    (hp : ptr % ALIGN_SIZE = 0)
    (hov : ptr + 3 * 2 ^ k + SIZEOF_BLOCK_HEADER < WORD)
    (hnz : adjust_request_size size ALIGN_SIZE ≠ 0)
    (hbs : ALIGN_SIZE < 2 ^ k →
      size_with_gap (adjust_request_size size ALIGN_SIZE) (2 ^ k) ≠ 0 ∧
      size_with_gap (adjust_request_size size ALIGN_SIZE) (2 ^ k) ≤ bsize) :
    (memalign_payload ptr bsize (2 ^ k)).1 % 2 ^ k = 0 ∧
    ((memalign_payload ptr bsize (2 ^ k)).2 = 0 ∨
      SIZEOF_BLOCK_HEADER ≤ (memalign_payload ptr bsize (2 ^ k)).2) := by
  have hk64 : k ≤ 64 := by omega
  by_cases hk4 : 4 ≤ k
  · -- align > ALIGN_SIZE: the full bump analysis
    have halign : ALIGN_SIZE < 2 ^ k := by
      unfold ALIGN_SIZE
      calc (8 : ℕ) < 2 ^ 4 := by norm_num
        _ ≤ 2 ^ k := Nat.pow_le_pow_right (by norm_num) hk4
    obtain ⟨hswgnz, hswgle⟩ := hbs halign
    obtain ⟨hdvd, hle, hgap⟩ := memalign_bump_spec ptr k hk4 hk hov
    have hadjmin := adjust_request_size_min size ALIGN_SIZE hnz
    have hadjlt := adjust_request_size_lt size ALIGN_SIZE
    have hkey := size_with_gap_ge (adjust_request_size size ALIGN_SIZE) k hk4 hk
      hadjmin hadjlt hswgnz
    unfold memalign_payload
    rcases hgap with hz | ⟨hg32, hgub⟩
    · rw [if_neg (by omega)]
      constructor
      · have heq : memalign_bump ptr (align_ptr ptr (2 ^ k)) (2 ^ k) = ptr := by omega
        rw [← heq]
        exact mod_eq_zero_of_dvd hdvd
      · exact Or.inl rfl
    · have hgnz : memalign_bump ptr (align_ptr ptr (2 ^ k)) (2 ^ k) - ptr ≠ 0 := by
        unfold SIZEOF_BLOCK_HEADER at hg32
        omega
      rw [if_pos hgnz]
      have hsplit : SIZEOF_BLOCK_HEADER +
          (memalign_bump ptr (align_ptr ptr (2 ^ k)) (2 ^ k) - ptr) ≤ bsize := by
        unfold SIZEOF_BLOCK_HEADER at hg32 ⊢
        omega
      rw [if_pos hsplit]
      constructor
      · have heq : ptr + (memalign_bump ptr (align_ptr ptr (2 ^ k)) (2 ^ k) - ptr)
            = memalign_bump ptr (align_ptr ptr (2 ^ k)) (2 ^ k) := by omega
        rw [heq]
        exact mod_eq_zero_of_dvd hdvd
      · exact Or.inr hg32
  · -- align ≤ ALIGN_SIZE: the payload is already aligned and no gap arises
    have hdvd8 : 2 ^ k ∣ 8 := by
      have : (8 : ℕ) = 2 ^ 3 := by norm_num
      rw [this]
      exact pow_dvd_pow 2 (by omega)
    have hdvdp : 2 ^ k ∣ ptr := by
      have h8 : (8 : ℕ) ∣ ptr := by
        unfold ALIGN_SIZE at hp
        omega
      exact dvd_trans hdvd8 h8
    have hup : align_up ptr (2 ^ k) = ptr := by
      apply align_up_of_dvd ptr k hk64 _ hdvdp
      unfold SIZEOF_BLOCK_HEADER at hov
      have : (2 : ℕ) ^ k ≥ 1 := Nat.one_le_two_pow
      omega
    unfold memalign_payload
    rw [align_ptr_eq_align_up, hup]
    have hbump : memalign_bump ptr ptr (2 ^ k) = ptr := by
      unfold memalign_bump
      rw [if_neg (by omega)]
    rw [hbump]
    dsimp only
    rw [if_neg (by omega)]
    constructor
    · exact mod_eq_zero_of_dvd hdvdp
    · exact Or.inl rfl

/-- C8 witness: `align = 16`, payload pointer `ptr = 8`, block size 80
(the `size_with_gap` bound for a one-byte request): the initial gap 8 is
smaller than a header, the bump moves to 48, and the result is 16-aligned
with a gap of 40 ≥ 32. -/
theorem C8_memalign_alignment_witness :
    (memalign_payload 8 80 (2 ^ 4)).1 % 2 ^ 4 = 0 ∧
    ((memalign_payload 8 80 (2 ^ 4)).2 = 0 ∨
      SIZEOF_BLOCK_HEADER ≤ (memalign_payload 8 80 (2 ^ 4)).2) ∧
    memalign_payload 8 80 (2 ^ 4) = (48, 40) := by
  have h := C8_memalign_alignment 4 8 80 1 (by decide) (by decide) (by decide)
    (by decide) (by decide)
  exact ⟨h.1, h.2, by decide⟩

/-! ### Claim C3 — no two adjacent free blocks

The physical chain of the pool is abstracted as a list of blocks carrying
their size and FREE bit, in address order; `next_physical` navigation
becomes list adjacency and the `PREV_FREE` bit is derived (spec invariant
I1 ties it to the neighbour's FREE bit).  The chain transformations are
translated from `block_split` / `block_coalesce`
(src/unnamed/part_000) and `trim_free`, `trim_used`,
`trim_free_leading`, `merge_prev`, `merge_next`, `prepare_used`,
`free_pool`, `realloc_pool`, `memalign_pool` (src/src/pool.cpp):
the operation acts on a distinguished block `b` with the chain split as
`pre ++ b :: post`. -/

structure CBlock where
  size : ℕ
  free : Bool
deriving DecidableEq

/-- Two physically adjacent blocks must not both be free. -/
def adjOk (x y : CBlock) : Prop := x.free = false ∨ y.free = false

instance (x y : CBlock) : Decidable (adjOk x y) :=
  inferInstanceAs (Decidable (x.free = false ∨ y.free = false))

def NoAdjFree (l : List CBlock) : Prop := List.Chain' adjOk l

instance (l : List CBlock) : Decidable (NoAdjFree l) :=
  inferInstanceAs (Decidable (List.Chain' adjOk l))

/-- `block_split(block, size)`: the block keeps its flags with the new
size; the remainder is `mark_as_free`d. -/
def block_splitC (b : CBlock) (size : ℕ) : CBlock × CBlock :=
  (⟨size, b.free⟩, ⟨b.size - (size + BLOCK_HEADER_OVERHEAD), true⟩)

/-- `block_coalesce(prev, block)`: sizes add (plus the overhead word),
flags of `prev` untouched. -/
def block_coalesceC (p b : CBlock) : CBlock :=
  ⟨p.size + b.size + BLOCK_HEADER_OVERHEAD, p.free⟩

def mark_usedC (b : CBlock) : CBlock := ⟨b.size, false⟩
def mark_freeC (b : CBlock) : CBlock := ⟨b.size, true⟩

/-- `trim_free(block, size)`: split when `can_split` and return the
remainder for reinsertion (the remainder stays in place physically). -/
def trim_freeC (b : CBlock) (size : ℕ) : CBlock × Option CBlock :=
  if SIZEOF_BLOCK_HEADER + size ≤ b.size then
    ((block_splitC b size).1, some (block_splitC b size).2)
  else (b, none)

/-- `merge_next(block)`: coalesce with the physically following block if
it is free.  An empty `post` stands for the terminal sentinel, which is
permanently used. -/
def merge_nextC (b : CBlock) (post : List CBlock) : CBlock × List CBlock :=
  match post with
  | [] => (b, [])
  | n :: rest => if n.free then (block_coalesceC b n, rest) else (b, n :: rest)

/-- `merge_prev(block)`: coalesce with the physically preceding block if
it is free (`is_prev_free` equals the predecessor's FREE bit by I1). -/
def merge_prevC (pre : List CBlock) (b : CBlock) : List CBlock × CBlock :=
  match pre.getLast? with
  | none => (pre, b)
  | some p => if p.free then (pre.dropLast, block_coalesceC p b) else (pre, b)

/-- `free_pool` after the ownership test: `mark_as_free`, `merge_prev`,
`merge_next`, reinsert. -/
def free_chain (pre : List CBlock) (b : CBlock) (post : List CBlock) :
    List CBlock :=
  (merge_prevC pre (mark_freeC b)).1 ++
    (merge_nextC (merge_prevC pre (mark_freeC b)).2 post).1 ::
      (merge_nextC (merge_prevC pre (mark_freeC b)).2 post).2

/-- `prepare_used(block, size)`: `trim_free` then `mark_as_used`. -/
def prepare_usedC (b : CBlock) (adjust : ℕ) : List CBlock :=
  mark_usedC (trim_freeC b adjust).1 :: (trim_freeC b adjust).2.toList

/-- `malloc_pool` after `locate_free` removed the (free) block `b` from
the index: the physical chain after `prepare_used`. -/
def malloc_chain (pre : List CBlock) (b : CBlock) (post : List CBlock)
    (adjust : ℕ) : List CBlock :=
  pre ++ prepare_usedC b adjust ++ post

/-- `trim_used(block, size)`: split, `set_prev_used` on the remainder,
merge the remainder with its successor, reinsert. -/
def trim_usedC (b : CBlock) (size : ℕ) (post : List CBlock) : List CBlock :=
  if SIZEOF_BLOCK_HEADER + size ≤ b.size then
    (block_splitC b size).1 ::
      (merge_nextC (block_splitC b size).2 post).1 ::
        (merge_nextC (block_splitC b size).2 post).2
  else b :: post

/-- The in-place branch of `realloc_pool`: optionally `merge_next` +
`mark_as_used` when growing, then `trim_used`. -/
def realloc_inplace_chain (pre : List CBlock) (b : CBlock)
    (post : List CBlock) (adjust : ℕ) : List CBlock :=
  if b.size < adjust then
    pre ++ trim_usedC (mark_usedC (merge_nextC b post).1) adjust
      (merge_nextC b post).2
  else pre ++ trim_usedC b adjust post

/-- `trim_free_leading(block, gap)`: when the block can be split, the
leading `gap - BLOCK_HEADER_OVERHEAD` bytes become a free block that is
reinserted, and the remainder (also free) is returned. -/
def trim_free_leadingC (b : CBlock) (gap : ℕ) : Option CBlock × CBlock :=
  if SIZEOF_BLOCK_HEADER + gap ≤ b.size then
    (some (block_splitC b (gap - BLOCK_HEADER_OVERHEAD)).1,
      (block_splitC b (gap - BLOCK_HEADER_OVERHEAD)).2)
  else (none, b)

/-- `memalign_pool` after `locate_free`: optional leading trim, then
`prepare_used`. -/
def memalign_chain (pre : List CBlock) (b : CBlock) (post : List CBlock)
    (gap adjust : ℕ) : List CBlock :=
  if gap ≠ 0 then
    pre ++ (trim_free_leadingC b gap).1.toList ++
      prepare_usedC (trim_free_leadingC b gap).2 adjust ++ post
  else pre ++ prepare_usedC b adjust ++ post

theorem noAdj_decomp {pre post : List CBlock} {b : CBlock} :
    NoAdjFree (pre ++ b :: post) ↔
      NoAdjFree pre ∧ NoAdjFree post ∧
      (∀ x ∈ pre.getLast?, adjOk x b) ∧ (∀ y ∈ post.head?, adjOk b y) := by
  unfold NoAdjFree
  rw [List.chain'_append, List.chain'_cons']
  constructor
  · rintro ⟨h1, ⟨h2a, h2b⟩, h3⟩
    refine ⟨h1, h2b, ?_, h2a⟩
    intro x hx
    exact h3 x hx b rfl
  · rintro ⟨h1, h2, h3, h4⟩
    refine ⟨h1, ⟨h4, h2⟩, ?_⟩
    intro x hx y hy
    rw [List.head?_cons, Option.mem_def, Option.some.injEq] at hy
    rw [← hy]
    exact h3 x hx

theorem noAdj_cons {x : CBlock} {l : List CBlock} :
    NoAdjFree (x :: l) ↔ (∀ y ∈ l.head?, adjOk x y) ∧ NoAdjFree l :=
  List.chain'_cons'

theorem merge_prevC_nil (b : CBlock) : merge_prevC [] b = ([], b) := rfl

theorem merge_prevC_concat (pre' : List CBlock) (p b : CBlock) :
    merge_prevC (pre' ++ [p]) b =
      if p.free then (pre', block_coalesceC p b) else (pre' ++ [p], b) := by
  unfold merge_prevC
  rw [List.getLast?_concat, List.dropLast_concat]

theorem merge_nextC_nil (b : CBlock) : merge_nextC b [] = (b, []) := rfl

theorem merge_nextC_cons (b n : CBlock) (rest : List CBlock) :
    merge_nextC b (n :: rest) =
      if n.free then (block_coalesceC b n, rest) else (b, n :: rest) := rfl

theorem merge_prevC_spec (pre : List CBlock) (b : CBlock)
    (hpre : NoAdjFree pre) (hb : b.free = true) :
    NoAdjFree (merge_prevC pre b).1 ∧ (merge_prevC pre b).2.free = true ∧
    ∀ x ∈ (merge_prevC pre b).1.getLast?, x.free = false := by
  rcases List.eq_nil_or_concat pre with rfl | ⟨pre', p, rfl⟩
  · rw [merge_prevC_nil]
    exact ⟨hpre, hb, by simp⟩
  · rw [List.concat_eq_append] at hpre ⊢
    rw [merge_prevC_concat]
    obtain ⟨hp1, _, hmid⟩ := List.chain'_append.mp hpre
    have hmid' : ∀ x ∈ pre'.getLast?, adjOk x p := by
      intro x hx
      exact hmid x hx p rfl
    by_cases hp : p.free
    · rw [if_pos hp]
      refine ⟨hp1, hp, ?_⟩
      intro x hx
      rcases hmid' x hx with h | h
      · exact h
      · rw [hp] at h
        exact absurd h (by simp)
    · rw [if_neg hp]
      refine ⟨hpre, hb, ?_⟩
      intro x hx
      rw [List.getLast?_concat, Option.mem_def, Option.some.injEq] at hx
      rw [← hx]
      simpa using hp

theorem merge_nextC_spec (b : CBlock) (post : List CBlock)
    (hpost : NoAdjFree post) :
    NoAdjFree (merge_nextC b post).2 ∧
    (merge_nextC b post).1.free = b.free ∧
    ∀ y ∈ (merge_nextC b post).2.head?, y.free = false := by
  cases post with
  | nil =>
    rw [merge_nextC_nil]
    exact ⟨hpost, rfl, by simp⟩
  | cons n rest =>
    obtain ⟨hhd, hrest⟩ := noAdj_cons.mp hpost
    rw [merge_nextC_cons]
    by_cases hn : n.free
    · rw [if_pos hn]
      refine ⟨hrest, rfl, ?_⟩
      intro y hy
      rcases hhd y hy with h | h
      · rw [hn] at h
        exact absurd h (by simp)
      · exact h
    · rw [if_neg hn]
      refine ⟨hpost, rfl, ?_⟩
      intro y hy
      rw [List.head?_cons, Option.mem_def, Option.some.injEq] at hy
      rw [← hy]
      simpa using hn

theorem prepare_usedC_noAdj (b : CBlock) (adjust : ℕ) (post : List CBlock)
    (hpost : NoAdjFree post) (hhead : ∀ y ∈ post.head?, y.free = false) :
    NoAdjFree (prepare_usedC b adjust ++ post) ∧
    ∀ x ∈ (prepare_usedC b adjust ++ post).head?, x.free = false := by
  unfold prepare_usedC trim_freeC
  by_cases hcs : SIZEOF_BLOCK_HEADER + adjust ≤ b.size
  · simp only [if_pos hcs, Option.toList_some, List.cons_append, List.nil_append]
    constructor
    · refine noAdj_cons.mpr ⟨?_, noAdj_cons.mpr ⟨?_, hpost⟩⟩
      · intro y _
        exact Or.inl rfl
      · intro y hy
        exact Or.inr (hhead y hy)
    · intro x hx
      rw [List.head?_cons, Option.mem_def, Option.some.injEq] at hx
      rw [← hx]
      rfl
  · simp only [if_neg hcs, Option.toList_none, List.cons_append, List.nil_append]
    constructor
    · refine noAdj_cons.mpr ⟨?_, hpost⟩
      intro y _
      exact Or.inl rfl
    · intro x hx
      rw [List.head?_cons, Option.mem_def, Option.some.injEq] at hx
      rw [← hx]
      rfl

theorem trim_usedC_noAdj (pre : List CBlock) (b1 : CBlock)
    (post1 : List CBlock) (adjust : ℕ) (hpre : NoAdjFree pre)
    (hpost : NoAdjFree post1) (hb1 : b1.free = false) :
    NoAdjFree (pre ++ trim_usedC b1 adjust post1) := by
  unfold trim_usedC
  by_cases hcs : SIZEOF_BLOCK_HEADER + adjust ≤ b1.size
  · rw [if_pos hcs]
    obtain ⟨hm1, _, hm3⟩ := merge_nextC_spec (block_splitC b1 adjust).2 post1 hpost
    refine noAdj_decomp.mpr ⟨hpre, ?_, ?_, ?_⟩
    · exact noAdj_cons.mpr ⟨fun y hy => Or.inr (hm3 y hy), hm1⟩
    · intro x _
      exact Or.inr hb1
    · intro y _
      exact Or.inl hb1
  · rw [if_neg hcs]
    refine noAdj_decomp.mpr ⟨hpre, hpost, ?_, ?_⟩
    · intro x _
      exact Or.inr hb1
    · intro y _
      exact Or.inl hb1

/-- C3: each public operation, applied to a physical chain with no two
adjacent free blocks (the distinguished block `b` being the freed block
for `free`, the located free block for `malloc`/`memalign`, and the
resized used block for the in-place `realloc`), yields a chain with no
two adjacent free blocks: `free` coalesces with both neighbours, and the
remainders produced by trimming are merged with a free successor before
reinsertion. -/
theorem C3_no_adjacent_free :
    (∀ pre (b : CBlock) post, NoAdjFree (pre ++ b :: post) →
      NoAdjFree (free_chain pre b post)) ∧
    (∀ pre (b : CBlock) post adjust, NoAdjFree (pre ++ b :: post) →
      b.free = true → NoAdjFree (malloc_chain pre b post adjust)) ∧
    (∀ pre (b : CBlock) post adjust, NoAdjFree (pre ++ b :: post) →
      b.free = false → NoAdjFree (realloc_inplace_chain pre b post adjust)) ∧
    (∀ pre (b : CBlock) post gap adjust, NoAdjFree (pre ++ b :: post) →
      b.free = true → NoAdjFree (memalign_chain pre b post gap adjust)) := by
  have hused : ∀ (b : CBlock) post, b.free = true → NoAdjFree (b :: post) →
      ∀ y ∈ List.head? post, y.free = false := by
    intro b post hb h y hy
    rcases (noAdj_cons.mp h).1 y hy with h' | h'
    · rw [hb] at h'
      exact absurd h' (by simp)
    · exact h'
  refine ⟨?_, ?_, ?_, ?_⟩
  · -- free
    intro pre b post h
    obtain ⟨h1, h2, _, _⟩ := noAdj_decomp.mp h
    obtain ⟨hp1, hp2, hp3⟩ := merge_prevC_spec pre (mark_freeC b) h1 rfl
    obtain ⟨hn1, _, hn3⟩ :=
      merge_nextC_spec (merge_prevC pre (mark_freeC b)).2 post h2
    unfold free_chain
    refine noAdj_decomp.mpr ⟨hp1, hn1, ?_, ?_⟩
    · intro x hx
      exact Or.inl (hp3 x hx)
    · intro y hy
      exact Or.inr (hn3 y hy)
  · -- malloc
    intro pre b post adjust h hb
    obtain ⟨h1, h2, h3, h4⟩ := noAdj_decomp.mp h
    have hph : ∀ y ∈ post.head?, y.free = false := by
      intro y hy
      rcases h4 y hy with h' | h'
      · rw [hb] at h'
        exact absurd h' (by simp)
      · exact h'
    obtain ⟨hp1, hp2⟩ := prepare_usedC_noAdj b adjust post h2 hph
    unfold malloc_chain
    rw [List.append_assoc]
    refine List.chain'_append.mpr ⟨h1, hp1, ?_⟩
    intro x hx y hy
    exact Or.inr (hp2 y hy)
  · -- realloc (in-place)
    intro pre b post adjust h hb
    obtain ⟨h1, h2, _, _⟩ := noAdj_decomp.mp h
    unfold realloc_inplace_chain
    by_cases hgrow : b.size < adjust
    · rw [if_pos hgrow]
      obtain ⟨hn1, _, _⟩ := merge_nextC_spec b post h2
      exact trim_usedC_noAdj pre _ _ adjust h1 hn1 rfl
    · rw [if_neg hgrow]
      exact trim_usedC_noAdj pre b post adjust h1 h2 hb
  · -- memalign
    intro pre b post gap adjust h hb
    obtain ⟨h1, h2, h3, h4⟩ := noAdj_decomp.mp h
    have hph : ∀ y ∈ post.head?, y.free = false := by
      intro y hy
      rcases h4 y hy with h' | h'
      · rw [hb] at h'
        exact absurd h' (by simp)
      · exact h'
    have hlast : ∀ x ∈ pre.getLast?, x.free = false := by
      intro x hx
      rcases h3 x hx with h' | h'
      · exact h'
      · rw [hb] at h'
        exact absurd h' (by simp)
    unfold memalign_chain
    by_cases hg : gap ≠ 0
    · rw [if_pos hg]
      by_cases hcs : SIZEOF_BLOCK_HEADER + gap ≤ b.size
      · have e1 : (trim_free_leadingC b gap).1
            = some (block_splitC b (gap - BLOCK_HEADER_OVERHEAD)).1 := by
          unfold trim_free_leadingC
          rw [if_pos hcs]
        have e2 : (trim_free_leadingC b gap).2
            = (block_splitC b (gap - BLOCK_HEADER_OVERHEAD)).2 := by
          unfold trim_free_leadingC
          rw [if_pos hcs]
        rw [e1, e2]
        obtain ⟨hq1, hq2⟩ := prepare_usedC_noAdj
          (block_splitC b (gap - BLOCK_HEADER_OVERHEAD)).2 adjust post h2 hph
        have hshape : pre ++ (some (block_splitC b (gap - BLOCK_HEADER_OVERHEAD)).1).toList ++
            prepare_usedC (block_splitC b (gap - BLOCK_HEADER_OVERHEAD)).2 adjust ++ post
            = pre ++ (block_splitC b (gap - BLOCK_HEADER_OVERHEAD)).1 ::
              (prepare_usedC (block_splitC b (gap - BLOCK_HEADER_OVERHEAD)).2 adjust ++ post) := by
          simp
        rw [hshape]
        refine noAdj_decomp.mpr ⟨h1, hq1, ?_, ?_⟩
        · intro x hx
          exact Or.inl (hlast x hx)
        · intro y hy
          exact Or.inr (hq2 y hy)
      · have e1 : (trim_free_leadingC b gap).1 = none := by
          unfold trim_free_leadingC
          rw [if_neg hcs]
        have e2 : (trim_free_leadingC b gap).2 = b := by
          unfold trim_free_leadingC
          rw [if_neg hcs]
        rw [e1, e2]
        obtain ⟨hq1, hq2⟩ := prepare_usedC_noAdj b adjust post h2 hph
        have hshape : pre ++ (none : Option CBlock).toList ++
            prepare_usedC b adjust ++ post
            = pre ++ (prepare_usedC b adjust ++ post) := by
          simp
        rw [hshape]
        refine List.chain'_append.mpr ⟨h1, hq1, ?_⟩
        intro x hx y hy
        exact Or.inr (hq2 y hy)
    · rw [if_neg hg]
      obtain ⟨hq1, hq2⟩ := prepare_usedC_noAdj b adjust post h2 hph
      rw [List.append_assoc]
      refine List.chain'_append.mpr ⟨h1, hq1, ?_⟩
      intro x hx y hy
      exact Or.inr (hq2 y hy)

/-- C3 witness: concrete chains exercising all four operations, each with
a used neighbour on both sides (and a free successor for `free`, which
gets coalesced). -/
theorem C3_no_adjacent_free_witness :
    NoAdjFree (free_chain [⟨24, false⟩] ⟨64, false⟩ [⟨40, true⟩]) ∧
    NoAdjFree (malloc_chain [⟨24, false⟩] ⟨96, true⟩ [⟨40, false⟩] 24) ∧
    NoAdjFree (realloc_inplace_chain [⟨24, false⟩] ⟨96, false⟩
      [⟨40, false⟩] 24) ∧
    NoAdjFree (memalign_chain [⟨24, false⟩] ⟨128, true⟩ [⟨40, false⟩] 40 24) := by
  refine ⟨C3_no_adjacent_free.1 _ _ _ (by simp [NoAdjFree, adjOk]),
    C3_no_adjacent_free.2.1 _ _ _ 24 (by simp [NoAdjFree, adjOk]) rfl,
    C3_no_adjacent_free.2.2.1 _ _ _ 24 (by simp [NoAdjFree, adjOk]) rfl,
    C3_no_adjacent_free.2.2.2 _ _ _ 40 24 (by simp [NoAdjFree, adjOk]) rfl⟩

end Tlsf
